import Mathlib

/-!
Verification of the mesh-security core against its specification.

The development shallowly embeds the collateral ledger (vault), the
cross-chain stake ledger with its unbonding queue, the reward
distribution engine, the validator-set CRDT and the IBC entry points,
and proves the spec's testable properties about them.
-/

namespace MeshSecurity

/-! ## Collateral Ledger (vault)

The vault contract source is excerpted only through its error type
(`error.rs`) and its tests (`multitest.rs`).  The ledger operations are
therefore modelled from the spec, with the collateral-usage aggregation
policy fixed to the unique policy consistent with the recorded
acceptance/rejection boundaries of `multitest.rs::multiple_stakes`
(usage 300 for liens 300/200/100 at ratios 10%/60%/60%, usage 570 for
liens 300/400/500 at the same ratios): the maximum of the largest single
lien amount and the sum of the slashable exposures. -/

/-- Slash ratio of a lienholder, a `Decimal` in the code, kept as an
exact fraction `num / den`. -/
structure Ratio where
  num : Nat
  den : Nat
deriving DecidableEq, Repr

/-- Modelled from the spec: `slashable_exposure = amount × slash_ratio`
(`Decimal` multiplication rounds down). -/
def slashableExposure (r : Ratio) (amount : Nat) : Nat :=
  amount * r.num / r.den

/-- Per-account vault state: `bonded` collateral plus the list of liens
`(lienholder, amount)`, keyed by first occurrence of the lienholder. -/
structure UserState where
  bonded : Nat
  liens : List (Nat × Nat)
deriving DecidableEq, Repr

/-- Largest single lien amount held against the account. -/
def maxLien (liens : List (Nat × Nat)) : Nat :=
  liens.foldr (fun l acc => max l.2 acc) 0

/-- Sum of slashable exposures over all liens, given the slash ratio of
each lienholder. -/
def totalSlashable (ratios : Nat → Ratio) (liens : List (Nat × Nat)) : Nat :=
  (liens.map (fun l => slashableExposure (ratios l.1) l.2)).sum

/-- Modelled from the spec: collateral usage of an account's liens.  The
aggregation policy is the maximum of the largest single lien amount and
the sum of slashable exposures, the unique policy reproducing the
recorded scenarios (see module comment above). -/
def collateralUsage (ratios : Nat → Ratio) (liens : List (Nat × Nat)) : Nat :=
  max (maxLien liens) (totalSlashable ratios liens)

/-- Free collateral of the account: `bonded − collateral_usage`. -/
def freeCollateral (ratios : Nat → Ratio) (st : UserState) : Nat :=
  st.bonded - collateralUsage ratios st.liens

/-- Vault errors, from `contracts/vault/src/error.rs` (misspellings kept). -/
inductive VaultError where
  | claimsLocked (max_withdrawable : Nat)
  | insufficentBalance
  | unknownLeinholder
  | insufficientLein
deriving DecidableEq, Repr

/-- Modelled from the spec: `bond` credits `bonded`, always succeeds. -/
def bond (st : UserState) (amount : Nat) : UserState :=
  { st with bonded := st.bonded + amount }

/-- Modelled from the spec: `unbond` fails with
`ClaimsLocked(max_withdrawable)` if `amount > free`, otherwise decreases
`bonded`. -/
def unbond (ratios : Nat → Ratio) (st : UserState) (amount : Nat) :
    Except VaultError UserState :=
  if freeCollateral ratios st < amount then
    .error (.claimsLocked (freeCollateral ratios st))
  else .ok { st with bonded := st.bonded - amount }

/-- Increase the lien of `lh` by `amount`, creating it on first pledge. -/
def addLien : List (Nat × Nat) → Nat → Nat → List (Nat × Nat)
  | [], lh, amount => [(lh, amount)]
  | l :: ls, lh, amount =>
    if l.1 = lh then (l.1, l.2 + amount) :: ls else l :: addLien ls lh amount

/-- Modelled from the spec: `open_or_increase_lien` (the shared core of
`stake_local` and `stake_remote`) computes the projected collateral
usage including the increase and fails with `InsufficentBalance` unless
it is bounded by `bonded`; nothing is committed on failure. -/
def stakeLien (ratios : Nat → Ratio) (st : UserState) (lh amount : Nat) :
    Except VaultError UserState :=
  let liens := addLien st.liens lh amount
  if collateralUsage ratios liens ≤ st.bonded then .ok { st with liens := liens }
  else .error .insufficentBalance

/-- Decrease the lien of `lh` by `amount`; `UnknownLeinholder` if there is
no such lien, `InsufficientLein` if the lien is too small. -/
def subLien : List (Nat × Nat) → Nat → Nat → Except VaultError (List (Nat × Nat))
  | [], _, _ => .error .unknownLeinholder
  | l :: ls, lh, amount =>
    if l.1 = lh then
      if l.2 < amount then .error .insufficientLein
      else .ok ((l.1, l.2 - amount) :: ls)
    else (subLien ls lh amount).map (l :: ·)

/-- Modelled from the spec: `release_lien` decreases the named lien,
failing with `UnknownLeinholder`/`InsufficientLein`. -/
def releaseLien (st : UserState) (lh amount : Nat) : Except VaultError UserState :=
  (subLien st.liens lh amount).map (fun ls => { st with liens := ls })

/-- The collateral-ledger operations on a single account. -/
inductive VaultOp where
  | bond (amount : Nat)
  | unbond (amount : Nat)
  | stake (lienholder amount : Nat)
  | release (lienholder amount : Nat)
deriving DecidableEq, Repr

/-- A failed operation commits nothing: the state is kept unchanged. -/
def orKeep (st : UserState) : Except VaultError UserState → UserState
  | .ok st' => st'
  | .error _ => st

/-- One transaction against the account: on error the state rolls back. -/
def applyVaultOp (ratios : Nat → Ratio) (st : UserState) : VaultOp → UserState
  | .bond a => bond st a
  | .unbond a => orKeep st (unbond ratios st a)
  | .stake lh a => orKeep st (stakeLien ratios st lh a)
  | .release lh a => orKeep st (releaseLien st lh a)

/-- The empty account: nothing bonded, no liens. -/
def initialUser : UserState := { bonded := 0, liens := [] }

/-- Run a sequence of collateral-ledger operations from the empty account. -/
def runVault (ratios : Nat → Ratio) (ops : List VaultOp) : UserState :=
  ops.foldl (applyVaultOp ratios) initialUser

/-- Slash ratios of the reference scenario: the local staking contract
(lienholder 0) slashes 10%, both remote lienholders slash 60%. -/
def referenceRatios : Nat → Ratio :=
  fun lh => if lh = 0 then ⟨10, 100⟩ else ⟨60, 100⟩

/-- Operations of the reference scenario: bond 1000, stake 300 locally,
200 and 100 remotely. -/
def referenceOps : List VaultOp :=
  [.bond 1000, .stake 0 300, .stake 1 200, .stake 2 100]

theorem subLien_maxLien_le (lh amount : Nat) :
    ∀ ls ls', subLien ls lh amount = .ok ls' → maxLien ls' ≤ maxLien ls := by
  intro ls
  induction ls with
  | nil => intro ls' h; simp [subLien] at h
  | cons l ls ih =>
    intro ls' h
    simp only [subLien] at h
    split at h
    · split at h
      · cases h
      · cases h
        simp only [maxLien, List.foldr]
        omega
    · cases hs : subLien ls lh amount with
      | error e => rw [hs] at h; cases h
      | ok ls0 =>
        rw [hs] at h
        cases h
        have := ih ls0 hs
        simp only [maxLien, List.foldr] at *
        omega

theorem subLien_totalSlashable_le (ratios : Nat → Ratio) (lh amount : Nat) :
    ∀ ls ls', subLien ls lh amount = .ok ls' →
      totalSlashable ratios ls' ≤ totalSlashable ratios ls := by
  intro ls
  induction ls with
  | nil => intro ls' h; simp [subLien] at h
  | cons l ls ih =>
    intro ls' h
    simp only [subLien] at h
    split at h
    · split at h
      · cases h
      · cases h
        simp only [totalSlashable, List.map, List.sum_cons]
        have : slashableExposure (ratios l.1) (l.2 - amount)
            ≤ slashableExposure (ratios l.1) l.2 := by
          unfold slashableExposure
          have : (l.2 - amount) * (ratios l.1).num ≤ l.2 * (ratios l.1).num :=
            Nat.mul_le_mul_right _ (Nat.sub_le _ _)
          exact Nat.div_le_div_right this
        omega
    · cases hs : subLien ls lh amount with
      | error e => rw [hs] at h; cases h
      | ok ls0 =>
        rw [hs] at h
        cases h
        have := ih ls0 hs
        simp only [totalSlashable, List.map, List.sum_cons] at *
        omega

theorem subLien_usage_le (ratios : Nat → Ratio) (lh amount : Nat)
    (ls ls' : List (Nat × Nat)) (h : subLien ls lh amount = .ok ls') :
    collateralUsage ratios ls' ≤ collateralUsage ratios ls := by
  have h1 := subLien_maxLien_le lh amount ls ls' h
  have h2 := subLien_totalSlashable_le ratios lh amount ls ls' h
  unfold collateralUsage
  omega

/-- The vault invariant `collateral_usage ≤ bonded` is preserved by every
single collateral-ledger transaction. -/
theorem applyVaultOp_invariant (ratios : Nat → Ratio) (st : UserState)
    (op : VaultOp) (h : collateralUsage ratios st.liens ≤ st.bonded) :
    collateralUsage ratios (applyVaultOp ratios st op).liens
      ≤ (applyVaultOp ratios st op).bonded := by
  cases op with
  | bond a =>
    simp only [applyVaultOp, bond]
    omega
  | unbond a =>
    simp only [applyVaultOp, unbond, freeCollateral]
    split
    · exact h
    · simp only [orKeep]
      omega
  | stake lh a =>
    simp only [applyVaultOp, stakeLien]
    split
    · simpa [orKeep]
    · exact h
  | release lh a =>
    simp only [applyVaultOp, releaseLien]
    cases hs : subLien st.liens lh a with
    | error e => simp [orKeep, hs, Except.map, h]
    | ok ls' =>
      simp only [hs, Except.map, orKeep]
      exact le_trans (subLien_usage_le ratios lh a st.liens ls' hs) h

theorem runVault_invariant (ratios : Nat → Ratio) (ops : List VaultOp) :
    collateralUsage ratios (runVault ratios ops).liens
      ≤ (runVault ratios ops).bonded := by
  suffices h : ∀ st, collateralUsage ratios st.liens ≤ st.bonded →
      collateralUsage ratios (ops.foldl (applyVaultOp ratios) st).liens
        ≤ (ops.foldl (applyVaultOp ratios) st).bonded by
    exact h initialUser (by simp [initialUser, collateralUsage, maxLien, totalSlashable])
  induction ops with
  | nil => intro st h; exact h
  | cons op ops ih =>
    intro st h
    exact ih _ (applyVaultOp_invariant ratios st op h)

/-- C1: after every sequence of collateral-ledger operations the account's
free amount is non-negative (equivalently, collateral usage never exceeds
`bonded`), and `free + collateral_usage(liens) = bonded`. -/
theorem vault_free_invariant (ratios : Nat → Ratio) (ops : List VaultOp) :
    0 ≤ ((runVault ratios ops).bonded : Int)
        - (collateralUsage ratios (runVault ratios ops).liens : Int)
    ∧ freeCollateral ratios (runVault ratios ops)
        + collateralUsage ratios (runVault ratios ops).liens
      = (runVault ratios ops).bonded := by
  have h := runVault_invariant ratios ops
  unfold freeCollateral
  constructor
  · omega
  · omega

/-- C2: `unbond` fails with `ClaimsLocked(free)` exactly when the amount
exceeds the free collateral, succeeds (decreasing `bonded` by the amount)
whenever the amount is at most the free collateral; in particular
unbonding exactly `free` succeeds and `free + 1` fails. -/
theorem unbond_claims_locked (ratios : Nat → Ratio) (st : UserState) (amount : Nat) :
    (freeCollateral ratios st < amount →
      unbond ratios st amount = .error (.claimsLocked (freeCollateral ratios st)))
    ∧ (amount ≤ freeCollateral ratios st →
      unbond ratios st amount = .ok { st with bonded := st.bonded - amount })
    ∧ unbond ratios st (freeCollateral ratios st)
        = .ok { st with bonded := st.bonded - freeCollateral ratios st }
    ∧ unbond ratios st (freeCollateral ratios st + 1)
        = .error (.claimsLocked (freeCollateral ratios st)) := by
  unfold unbond
  refine ⟨fun h => ?_, fun h => ?_, ?_, ?_⟩
  · rw [if_pos h]
  · rw [if_neg (by omega)]
  · rw [if_neg (by omega)]
  · rw [if_pos (by omega)]

/-- C2 witness: with 30 bonded and no liens (the state reached in the
`bonding` test), unbonding 100 fails with `ClaimsLocked(30)`. -/
theorem unbond_claims_locked_witness :
    freeCollateral (fun _ => ⟨6, 10⟩) ⟨30, []⟩ < 100
    ∧ unbond (fun _ => ⟨6, 10⟩) ⟨30, []⟩ 100
        = .error (.claimsLocked (freeCollateral (fun _ => ⟨6, 10⟩) ⟨30, []⟩)) :=
  ⟨by decide, (unbond_claims_locked (fun _ => ⟨6, 10⟩) ⟨30, []⟩ 100).1 (by decide)⟩

/-- C3: a lien increase fails with `InsufficentBalance` exactly when the
projected collateral usage including the increase exceeds `bonded`, and a
failing lien increase leaves the account state completely unchanged. -/
theorem stake_lien_insufficient_balance (ratios : Nat → Ratio) (st : UserState)
    (lh amount : Nat) :
    (stakeLien ratios st lh amount = .error .insufficentBalance
      ↔ ¬ collateralUsage ratios (addLien st.liens lh amount) ≤ st.bonded)
    ∧ (∀ e, stakeLien ratios st lh amount = .error e →
        applyVaultOp ratios st (.stake lh amount) = st) := by
  constructor
  · simp only [stakeLien]
    split
    · simp_all
    · simp_all
  · intro e h
    simp [applyVaultOp, orKeep, h]

/-- C3 witness: with 300 bonded and a 250 lien at a 10% lienholder (the
state of the `stake_local` test), a further 150 lien increase fails with
`InsufficentBalance` and the state is unchanged. -/
theorem stake_lien_insufficient_balance_witness :
    stakeLien (fun _ => ⟨10, 100⟩) ⟨300, [(0, 250)]⟩ 0 150
      = .error .insufficentBalance
    ∧ applyVaultOp (fun _ => ⟨10, 100⟩) ⟨300, [(0, 250)]⟩ (.stake 0 150)
      = ⟨300, [(0, 250)]⟩ :=
  ⟨(stake_lien_insufficient_balance (fun _ => ⟨10, 100⟩) ⟨300, [(0, 250)]⟩ 0 150).1.mpr
      (by decide),
   (stake_lien_insufficient_balance (fun _ => ⟨10, 100⟩) ⟨300, [(0, 250)]⟩ 0 150).2
      .insufficentBalance (by rfl)⟩

/-- C4: in the reference scenario (bond 1000; stake 300 locally at 10%
slash; stake 200 and 100 remotely at 60% slash) the account reports
`bonded = 1000` and `free = 700`. -/
theorem reference_scenario_collateral :
    runVault referenceRatios referenceOps
        = { bonded := 1000, liens := [(0, 300), (1, 200), (2, 100)] }
    ∧ (runVault referenceRatios referenceOps).bonded = 1000
    ∧ freeCollateral referenceRatios (runVault referenceRatios referenceOps) = 700 := by
  refine ⟨by decide, by decide, by decide⟩

/-! ## Cross-chain stake ledger: `Stake` and its unbonding queue

Embedded from `contracts/external-staking/src/state.rs`. -/

/-- Tokens in the unbonding period (`PendingUnbond` in `state.rs`);
`release_at` is a `Timestamp` kept as nanoseconds. -/
structure PendingUnbond where
  amount : Nat
  release_at : Nat
deriving DecidableEq, Repr

/-- Per-`(user, validator)` stake record (`Stake` in `state.rs`). -/
structure Stake where
  stake : Nat
  pending_unbonds : List PendingUnbond
  points_alignment : Int
  withdrawn_funds : Nat
deriving DecidableEq, Repr

/-- Binary search core of Rust's `<[T]>::partition_point`
(`binary_search_by` specialised to a predicate): narrows `[left, right)`
by probing the midpoint. -/
def ppGo (pred : PendingUnbond → Bool) (xs : List PendingUnbond)
    (left right : Nat) : Nat :=
  if h : left < right then
    if pred (xs.getD (left + (right - left) / 2) ⟨0, 0⟩) then
      ppGo pred xs (left + (right - left) / 2 + 1) right
    else ppGo pred xs left (left + (right - left) / 2)
  else left
termination_by right - left
decreasing_by
  · omega
  · omega

/-- Rust's `partition_point`: index of the first element not satisfying
the predicate, assuming the list is partitioned. -/
def partitionPoint (pred : PendingUnbond → Bool) (xs : List PendingUnbond) : Nat :=
  ppGo pred xs 0 xs.length

/-- An unbonding entry has matured at block time `t`
(`pending.release_at <= info.time` in the code). -/
def maturedBy (t : Nat) (p : PendingUnbond) : Bool := p.release_at ≤ t

/-- `Stake::release_pending` from `state.rs`: fast paths for the empty
queue and a head not yet due, otherwise binary-search the split point,
drain the matured prefix, and return the sum of its amounts. -/
def release_pending (t : Nat) (s : Stake) : Nat × Stake :=
  if s.pending_unbonds.isEmpty then (0, s)
  else if t < (s.pending_unbonds.headD ⟨0, 0⟩).release_at then (0, s)
  else
    ((((s.pending_unbonds.take
          (partitionPoint (maturedBy t) s.pending_unbonds)).map
            PendingUnbond.amount).sum),
     { s with pending_unbonds :=
        s.pending_unbonds.drop (partitionPoint (maturedBy t) s.pending_unbonds) })

/-- The queue invariant from `state.rs`: entries are sorted by release
time, because they are only appended with monotone block time. -/
def sortedPending (l : List PendingUnbond) : Prop :=
  l.Pairwise (fun a b => a.release_at ≤ b.release_at)

theorem sum_amount_take_drop (n : Nat) (l : List PendingUnbond) :
    ((l.take n).map PendingUnbond.amount).sum
      + ((l.drop n).map PendingUnbond.amount).sum
      = (l.map PendingUnbond.amount).sum := by
  rw [← List.sum_append, ← List.map_append, List.take_append_drop]

/-- C10: for every `Stake` (no sortedness assumed) and block time, the
released amount plus the amounts remaining in `pending_unbonds` equals
the amounts pending before the call, and the remaining list is a
contiguous suffix of the original one. -/
theorem release_pending_conservation (t : Nat) (s : Stake) :
    (release_pending t s).1
      + ((release_pending t s).2.pending_unbonds.map PendingUnbond.amount).sum
      = (s.pending_unbonds.map PendingUnbond.amount).sum
    ∧ List.IsSuffix (release_pending t s).2.pending_unbonds s.pending_unbonds := by
  unfold release_pending
  split
  · exact ⟨by simp, List.suffix_refl _⟩
  · split
    · exact ⟨by simp, List.suffix_refl _⟩
    · constructor
      · exact
          sum_amount_take_drop (partitionPoint (maturedBy t) s.pending_unbonds)
            s.pending_unbonds
      · simpa using
          List.drop_suffix (partitionPoint (maturedBy t) s.pending_unbonds)
            s.pending_unbonds

/-- Correctness of the binary search: on a list partitioned at `k` by the
predicate, `ppGo` run on any bracketing window returns `k`. -/
theorem ppGo_eq (pred : PendingUnbond → Bool) (xs : List PendingUnbond) (k : Nat)
    (htrue : ∀ i, i < k → pred (xs.getD i ⟨0, 0⟩) = true)
    (hfalse : ∀ i, k ≤ i → i < xs.length → pred (xs.getD i ⟨0, 0⟩) = false) :
    ∀ left right, left ≤ k → k ≤ right → right ≤ xs.length →
      ppGo pred xs left right = k := by
  have main : ∀ n left right, right - left ≤ n → left ≤ k → k ≤ right →
      right ≤ xs.length → ppGo pred xs left right = k := by
    intro n
    induction n with
    | zero =>
      intro left right h1 h2 h3 h4
      rw [ppGo.eq_def, dif_neg (by omega)]
      omega
    | succ n ih =>
      intro left right h1 h2 h3 h4
      rw [ppGo.eq_def]
      by_cases hlr : left < right
      · rw [dif_pos hlr]
        by_cases hp : pred (xs.getD (left + (right - left) / 2) ⟨0, 0⟩) = true
        · rw [if_pos hp]
          have hk : left + (right - left) / 2 < k := by
            by_contra hcon
            push_neg at hcon
            have := hfalse (left + (right - left) / 2) hcon (by omega)
            rw [this] at hp
            cases hp
          exact ih (left + (right - left) / 2 + 1) right (by omega) (by omega) h3 h4
        · rw [if_neg hp]
          have hk : k ≤ left + (right - left) / 2 := by
            by_contra hcon
            push_neg at hcon
            exact hp (htrue (left + (right - left) / 2) hcon)
          exact ih left (left + (right - left) / 2) (by omega) h2 hk (by omega)
      · rw [dif_neg hlr]
        omega
  exact fun left right h2 h3 h4 => main (right - left) left right le_rfl h2 h3 h4

/-- A sorted unbonding queue is partitioned by maturity at the length of
its matured prefix. -/
theorem sorted_partitioned (t : Nat) :
    ∀ l : List PendingUnbond, sortedPending l →
      (∀ i, i < (l.takeWhile (maturedBy t)).length →
        maturedBy t (l.getD i ⟨0, 0⟩) = true)
      ∧ (∀ i, (l.takeWhile (maturedBy t)).length ≤ i → i < l.length →
        maturedBy t (l.getD i ⟨0, 0⟩) = false) := by
  intro l
  induction l with
  | nil =>
    intro _
    exact ⟨fun i h => by simp at h, fun i _ h => by simp at h⟩
  | cons p l ih =>
    intro hs
    rw [sortedPending, List.pairwise_cons] at hs
    obtain ⟨hhead, htail⟩ := hs
    obtain ⟨ih1, ih2⟩ := ih htail
    by_cases hp : maturedBy t p = true
    · constructor
      · intro i hi
        rw [List.takeWhile_cons, if_pos hp] at hi
        cases i with
        | zero => simpa using hp
        | succ j =>
          simp only [List.length_cons] at hi
          have := ih1 j (by omega)
          simpa using this
      · intro i hi hlen
        rw [List.takeWhile_cons, if_pos hp] at hi
        cases i with
        | zero => simp at hi
        | succ j =>
          simp only [List.length_cons] at hi hlen
          have := ih2 j (by omega) (by omega)
          simpa using this
    · constructor
      · intro i hi
        rw [List.takeWhile_cons, if_neg hp] at hi
        simp at hi
      · intro i _ hlen
        cases i with
        | zero => simpa using hp
        | succ j =>
          simp only [List.length_cons] at hlen
          have hj : j < l.length := by omega
          have hmem : l.getD j ⟨0, 0⟩ ∈ l := by
            rw [List.getD_eq_getElem l ⟨0, 0⟩ hj]
            exact List.getElem_mem hj
          have hle := hhead _ hmem
          have hpf : ¬ p.release_at ≤ t := by
            simpa [maturedBy] using hp
          have : ¬ (l.getD j ⟨0, 0⟩).release_at ≤ t := by omega
          simpa [maturedBy] using this

/-- On a sorted queue, the matured prefix is exactly the matured entries
and the rest exactly the unmatured ones. -/
theorem sorted_takeWhile_filter (t : Nat) :
    ∀ l : List PendingUnbond, sortedPending l →
      l.takeWhile (maturedBy t) = l.filter (maturedBy t)
      ∧ l.dropWhile (maturedBy t) = l.filter (fun p => ! maturedBy t p) := by
  intro l
  induction l with
  | nil => intro _; exact ⟨rfl, rfl⟩
  | cons p l ih =>
    intro hs
    rw [sortedPending, List.pairwise_cons] at hs
    obtain ⟨hhead, htail⟩ := hs
    obtain ⟨ih1, ih2⟩ := ih htail
    by_cases hp : maturedBy t p = true
    · constructor
      · rw [List.takeWhile_cons, if_pos hp, List.filter_cons, if_pos hp, ih1]
      · rw [List.dropWhile_cons, if_pos hp, List.filter_cons, if_neg (by simp [hp]), ih2]
    · have hall : ∀ q ∈ l, ¬ maturedBy t q = true := by
        intro q hq
        have hle := hhead q hq
        have hpf : ¬ p.release_at ≤ t := by simpa [maturedBy] using hp
        simp only [maturedBy, decide_eq_true_eq]
        omega
      constructor
      · rw [List.takeWhile_cons, if_neg hp, List.filter_cons, if_neg hp]
        exact (List.filter_eq_nil_iff.mpr hall).symm
      · rw [List.dropWhile_cons, if_neg hp, List.filter_cons, if_pos (by simp [hp])]
        have : l.filter (fun p => ! maturedBy t p) = l :=
          List.filter_eq_self.mpr (by intro a ha; simpa using hall a ha)
        rw [this]

theorem take_drop_len_takeWhile (pred : PendingUnbond → Bool) :
    ∀ l : List PendingUnbond,
      l.take (l.takeWhile pred).length = l.takeWhile pred
      ∧ l.drop (l.takeWhile pred).length = l.dropWhile pred := by
  intro l
  induction l with
  | nil => exact ⟨rfl, rfl⟩
  | cons p l ih =>
    by_cases hp : pred p = true
    · rw [List.takeWhile_cons, if_pos hp, List.dropWhile_cons, if_pos hp]
      simp only [List.length_cons, List.take_succ_cons, List.drop_succ_cons]
      exact ⟨by rw [ih.1], ih.2⟩
    · rw [List.takeWhile_cons, if_neg hp, List.dropWhile_cons, if_neg hp]
      simp

/-- A queue whose entries are all unmatured releases nothing. -/
theorem release_pending_all_unmatured (t : Nat) (s : Stake)
    (h : ∀ q ∈ s.pending_unbonds, maturedBy t q = false) :
    release_pending t s = (0, s) := by
  unfold release_pending
  cases hl : s.pending_unbonds with
  | nil => simp [hl]
  | cons p l =>
    have hp := h p (by rw [hl]; exact List.mem_cons_self p l)
    have : t < p.release_at := by
      simp only [maturedBy, decide_eq_false_iff_not] at hp
      omega
    simp [this]

/-- C5: on a sorted unbonding queue, `release_pending` at block time `t`
returns exactly the sum of the amounts of the matured entries
(`release_at ≤ t`), removes exactly those, keeping the remaining entries
in their original relative order, and a second call at the same time
returns zero. -/
theorem release_pending_sorted (t : Nat) (s : Stake)
    (hs : sortedPending s.pending_unbonds) :
    (release_pending t s).1
        = ((s.pending_unbonds.filter (maturedBy t)).map PendingUnbond.amount).sum
    ∧ (release_pending t s).2.pending_unbonds
        = s.pending_unbonds.filter (fun p => ! maturedBy t p)
    ∧ (release_pending t (release_pending t s).2).1 = 0 := by
  have hfilters := sorted_takeWhile_filter t s.pending_unbonds hs
  have h12 : (release_pending t s).1
        = ((s.pending_unbonds.filter (maturedBy t)).map PendingUnbond.amount).sum
      ∧ (release_pending t s).2.pending_unbonds
        = s.pending_unbonds.filter (fun p => ! maturedBy t p) := by
    unfold release_pending
    split
    · rename_i hemp
      have hnil : s.pending_unbonds = [] := by
        simpa [List.isEmpty_iff] using hemp
      simp [hnil]
    · split
      · rename_i hemp hhead
        have hall : ∀ q ∈ s.pending_unbonds, maturedBy t q = false := by
          cases hl : s.pending_unbonds with
          | nil => simp
          | cons p l' =>
            rw [hl] at hhead
            have hs' := hs
            rw [hl, sortedPending, List.pairwise_cons] at hs'
            simp only [List.headD_cons] at hhead
            intro q hq
            rcases List.mem_cons.mp hq with hq | hq
            · subst hq
              simp only [maturedBy, decide_eq_false_iff_not]
              omega
            · have := hs'.1 q hq
              simp only [maturedBy, decide_eq_false_iff_not]
              omega
        have hfe : s.pending_unbonds.filter (maturedBy t) = [] :=
          List.filter_eq_nil_iff.mpr (fun a ha => by rw [hall a ha]; simp)
        have hfs : s.pending_unbonds.filter (fun p => ! maturedBy t p)
            = s.pending_unbonds :=
          List.filter_eq_self.mpr (fun a ha => by rw [hall a ha]; simp)
        constructor
        · simp [hfe]
        · simp [hfs]
      · rename_i hemp hhead
        have hpart := sorted_partitioned t s.pending_unbonds hs
        have hpp : partitionPoint (maturedBy t) s.pending_unbonds
            = (s.pending_unbonds.takeWhile (maturedBy t)).length := by
          unfold partitionPoint
          exact ppGo_eq (maturedBy t) s.pending_unbonds _ hpart.1 hpart.2
            0 s.pending_unbonds.length (Nat.zero_le _)
            (List.Sublist.length_le (List.takeWhile_sublist (maturedBy t))) le_rfl
        have htd := take_drop_len_takeWhile (maturedBy t) s.pending_unbonds
        constructor
        · simp only
          rw [hpp, htd.1, hfilters.1]
        · simp only
          rw [hpp, htd.2, hfilters.2]
  refine ⟨h12.1, h12.2, ?_⟩
  have hall2 : ∀ q ∈ (release_pending t s).2.pending_unbonds,
      maturedBy t q = false := by
    rw [h12.2]
    intro q hq
    have := (List.mem_filter.mp hq).2
    simpa using this
  rw [release_pending_all_unmatured t _ hall2]

/-- Sample sorted stake record used to witness the C5 theorem. -/
def sampleStake : Stake :=
  { stake := 0
    pending_unbonds := [⟨10, 5⟩, ⟨20, 15⟩]
    points_alignment := 0
    withdrawn_funds := 0 }

/-- C5 witness: on the sorted queue `[10@5, 20@15]` at time 7, only the
first entry is released. -/
theorem release_pending_sorted_witness :
    sortedPending sampleStake.pending_unbonds
    ∧ ((release_pending 7 sampleStake).1
        = ((sampleStake.pending_unbonds.filter (maturedBy 7)).map
            PendingUnbond.amount).sum
      ∧ (release_pending 7 sampleStake).2.pending_unbonds
        = sampleStake.pending_unbonds.filter (fun p => ! maturedBy 7 p)
      ∧ (release_pending 7 (release_pending 7 sampleStake).2).1 = 0) :=
  ⟨by simp [sortedPending, sampleStake],
   release_pending_sorted 7 sampleStake (by simp [sortedPending, sampleStake])⟩

/-! ## Reward Distribution Engine

The `Distribution` record is embedded from
`contracts/external-staking/src/state.rs`; the reward-injection and
withdrawal arithmetic lives in code not excerpted under `src/` and is
modelled from the spec (§4.3, §4.4, §8). -/

/-- Per-validator distribution record (`Distribution` in `state.rs`). -/
structure Distribution where
  total_stake : Nat
  points_per_stake : Nat
  points_leftover : Nat
deriving DecidableEq, Repr

/-- Modelled from the spec: `inject_rewards`.  With no stake the scaled
amount is carried entirely in `points_leftover`; otherwise
`points = amount × SCALE + points_leftover`, `points_per_stake` grows by
`points / total_stake` and `points % total_stake` is the new leftover. -/
def inject_rewards (scale : Nat) (d : Distribution) (amount : Nat) : Distribution :=
  if d.total_stake = 0 then
    { d with points_leftover := d.points_leftover + amount * scale }
  else
    { d with
      points_per_stake :=
        d.points_per_stake + (amount * scale + d.points_leftover) / d.total_stake
      points_leftover := (amount * scale + d.points_leftover) % d.total_stake }

/-- Modelled from the spec: pending rewards of one staker, the
alignment-adjusted lazy accrual
`staked_amount × points_per_stake − points_alignment`, unscaled, minus
the funds already withdrawn. -/
def pending_rewards (scale staked pps : Nat) (alignment : Int)
    (withdrawn : Nat) : Int :=
  ((staked * pps : Nat) - alignment) / (scale : Int) - (withdrawn : Int)

/-- C9: injecting 250 at scale factor 1 into a validator with
`total_stake = 100` adds exactly 2 to `points_per_stake` and leaves 50 in
`points_leftover`; a staker with 40 staked and no prior
alignment/withdrawals then withdraws exactly 80; and in general (for
non-zero total stake) injection adds `points / total_stake` to
`points_per_stake` and keeps `points % total_stake`, where
`points = amount × SCALE + points_leftover`. -/
theorem distribution_reference_scenario :
    (∀ p0 : Nat, inject_rewards 1 ⟨100, p0, 0⟩ 250 = ⟨100, p0 + 2, 50⟩)
    ∧ pending_rewards 1 40 2 0 0 = 80
    ∧ ∀ (scale amount : Nat) (d : Distribution), d.total_stake ≠ 0 →
        inject_rewards scale d amount
          = ⟨d.total_stake,
             d.points_per_stake + (amount * scale + d.points_leftover) / d.total_stake,
             (amount * scale + d.points_leftover) % d.total_stake⟩ := by
  refine ⟨fun p0 => ?_, by decide, fun scale amount d h => ?_⟩
  · simp [inject_rewards]
  · simp [inject_rewards, h]

/-- C9 witness: the general injection formula applied at the reference
input `total_stake = 100`, amount 250, scale 1. -/
theorem distribution_reference_scenario_witness :
    (100 : Nat) ≠ 0
    ∧ inject_rewards 1 ⟨100, 0, 0⟩ 250
        = ⟨100, 0 + (250 * 1 + 0) / 100, (250 * 1 + 0) % 100⟩ :=
  ⟨by decide,
   distribution_reference_scenario.2.2 1 250 ⟨100, 0, 0⟩ (by decide)⟩

/-! ## Validator Set CRDT

`crdt.rs` is not excerpted under `src/` (only its caller `ibc.rs` is);
the per-validator state machine is modelled from the spec §4.5: `add` on
an absent key activates it and is a no-op otherwise (first-writer-wins);
`remove` tombstones an active key and is a no-op otherwise. -/

/-- Validator data carried by an add operation (`ValUpdate` in the code). -/
structure ValUpdate where
  pub_key : String
  start_height : Nat
  start_time : Nat
deriving DecidableEq, Repr

/-- Modelled from the spec: per-key CRDT state, active or tombstoned. -/
inductive ValidatorState where
  | active (update : ValUpdate)
  | tombstoned
deriving DecidableEq, Repr

/-- The replicated validator registry, keyed by operator address. -/
def CrdtStore : Type := String → Option ValidatorState

/-- The registry before any packet arrived. -/
def emptyStore : CrdtStore := fun _ => none

/-- Modelled from the spec: `add(key, data)` — absent becomes active,
already active or removed is a no-op. -/
def add_validator (st : CrdtStore) (valoper : String) (u : ValUpdate) : CrdtStore :=
  match st valoper with
  | none => fun k => if k = valoper then some (.active u) else st k
  | some _ => st

/-- Modelled from the spec: `remove(key)` — active becomes tombstoned
(permanently), absent or already removed is a no-op. -/
def remove_validator (st : CrdtStore) (valoper : String) : CrdtStore :=
  match st valoper with
  | some (.active _) => fun k => if k = valoper then some .tombstoned else st k
  | _ => st

/-- One element of an `AddValidators`/`RemoveValidators` packet. -/
inductive ValOp where
  | add (valoper : String) (update : ValUpdate)
  | remove (valoper : String)
deriving DecidableEq, Repr

/-- The validator key an operation touches. -/
def ValOp.key : ValOp → String
  | .add v _ => v
  | .remove v => v

/-- Apply one add/remove element to the registry. -/
def applyValOp (st : CrdtStore) : ValOp → CrdtStore
  | .add v u => add_validator st v u
  | .remove v => remove_validator st v

/-- Apply a sequence of add/remove elements in order. -/
def runValOps (ops : List ValOp) (st : CrdtStore) : CrdtStore :=
  ops.foldl applyValOp st

theorem applyValOp_other (st : CrdtStore) (op : ValOp) (k : String)
    (h : op.key ≠ k) : applyValOp st op k = st k := by
  cases op with
  | add v u =>
    simp only [ValOp.key] at h
    simp only [applyValOp, add_validator]
    cases hv : st v with
    | none => exact if_neg (fun hk => h hk.symm)
    | some s => rfl
  | remove v =>
    simp only [ValOp.key] at h
    simp only [applyValOp, remove_validator]
    cases hv : st v with
    | none => rfl
    | some s =>
      cases s with
      | active u => exact if_neg (fun hk => h hk.symm)
      | tombstoned => rfl

theorem applyValOp_key_val (st st' : CrdtStore) (op : ValOp)
    (hread : st' op.key = st op.key) :
    applyValOp st' op op.key = applyValOp st op op.key := by
  cases op with
  | add v u =>
    simp only [ValOp.key] at hread
    simp only [applyValOp, add_validator]
    rw [hread]
    cases hv : st v with
    | none => simp [ValOp.key]
    | some s => exact hread
  | remove v =>
    simp only [ValOp.key] at hread
    simp only [applyValOp, remove_validator]
    rw [hread]
    cases hv : st v with
    | none => exact hread
    | some s =>
      cases s with
      | active u => simp [ValOp.key]
      | tombstoned => exact hread

theorem applyValOp_comm (st : CrdtStore) (a b : ValOp) (h : a.key ≠ b.key) :
    applyValOp (applyValOp st a) b = applyValOp (applyValOp st b) a := by
  funext k
  by_cases hka : k = a.key
  · subst hka
    rw [applyValOp_other (applyValOp st a) b a.key (fun hb => h hb.symm)]
    exact (applyValOp_key_val st (applyValOp st b) a
      (applyValOp_other st b a.key (fun hb => h hb.symm))).symm
  · by_cases hkb : k = b.key
    · subst hkb
      rw [applyValOp_other (applyValOp st b) a b.key (fun ha => h ha)]
      exact applyValOp_key_val st (applyValOp st a) b
        (applyValOp_other st a b.key (fun ha => h ha))
    · rw [applyValOp_other (applyValOp st a) b k (fun hb => hkb hb.symm),
          applyValOp_other st a k (fun ha => hka ha.symm),
          applyValOp_other (applyValOp st b) a k (fun ha => hka ha.symm),
          applyValOp_other st b k (fun hb => hkb hb.symm)]

theorem add_validator_key_some (st : CrdtStore) (v : String) (u : ValUpdate) :
    ∃ s, add_validator st v u v = some s := by
  unfold add_validator
  cases hv : st v with
  | none => exact ⟨.active u, by simp⟩
  | some s => exact ⟨s, hv⟩

theorem add_validator_of_some (st : CrdtStore) (v : String) (u : ValUpdate)
    (s : ValidatorState) (h : st v = some s) : add_validator st v u = st := by
  unfold add_validator
  rw [h]

theorem remove_validator_of_not_active (st : CrdtStore) (v : String)
    (h : ∀ u, st v ≠ some (.active u)) : remove_validator st v = st := by
  unfold remove_validator
  cases hv : st v with
  | none => rfl
  | some s =>
    cases s with
    | active u => exact absurd hv (h u)
    | tombstoned => rfl

theorem remove_validator_key_not_active (st : CrdtStore) (v : String) :
    ∀ u, remove_validator st v v ≠ some (.active u) := by
  intro u
  unfold remove_validator
  cases hv : st v with
  | none => simp [hv]
  | some s =>
    cases s with
    | active u' => simp
    | tombstoned => simp [hv]

theorem applyValOp_idem (st : CrdtStore) (op : ValOp) :
    applyValOp (applyValOp st op) op = applyValOp st op := by
  cases op with
  | add v u =>
    simp only [applyValOp]
    obtain ⟨s, hs⟩ := add_validator_key_some st v u
    exact add_validator_of_some _ v u s hs
  | remove v =>
    simp only [applyValOp]
    exact remove_validator_of_not_active _ v (remove_validator_key_not_active st v)

/-- C6 counterexample: `add v; remove v` and its permutation
`remove v; add v` yield different registries (tombstoned vs active), so
permutation invariance fails on overlapping keys. -/
theorem crdt_perm_counterexample :
    List.Perm [ValOp.add "v" ⟨"pk", 1, 2⟩, ValOp.remove "v"]
      [ValOp.remove "v", ValOp.add "v" ⟨"pk", 1, 2⟩]
    ∧ runValOps [ValOp.add "v" ⟨"pk", 1, 2⟩, ValOp.remove "v"] emptyStore
      ≠ runValOps [ValOp.remove "v", ValOp.add "v" ⟨"pk", 1, 2⟩] emptyStore := by
  constructor
  · exact List.Perm.swap _ _ _
  · intro h
    have h2 := congrFun h "v"
    have e1 : runValOps [ValOp.add "v" ⟨"pk", 1, 2⟩, ValOp.remove "v"]
        emptyStore "v" = some ValidatorState.tombstoned := by decide
    have e2 : runValOps [ValOp.remove "v", ValOp.add "v" ⟨"pk", 1, 2⟩]
        emptyStore "v" = some (ValidatorState.active ⟨"pk", 1, 2⟩) := by decide
    rw [e1, e2] at h2
    exact absurd h2 (by decide)

/-- C6 (amended): applying a fixed multiset of add/remove elements whose
keys are pairwise distinct yields the same registry in any permutation,
and applying any single operation twice yields the same registry as
applying it once. -/
theorem crdt_distinct_keys_commutative :
    (∀ (ops ops' : List ValOp) (st : CrdtStore), ops.Perm ops' →
        (ops.map ValOp.key).Nodup → runValOps ops st = runValOps ops' st)
    ∧ ∀ (st : CrdtStore) (op : ValOp),
        applyValOp (applyValOp st op) op = applyValOp st op := by
  constructor
  · intro ops ops' st hperm hnodup
    unfold runValOps
    refine hperm.foldl_eq' ?_ st
    intro x hx y hy z
    by_cases hxy : x = y
    · subst hxy; rfl
    · have hkey : x.key ≠ y.key := fun h =>
        hxy (List.inj_on_of_nodup_map hnodup hx hy h)
      exact applyValOp_comm z x y hkey
  · exact applyValOp_idem

/-- C6 witness: two operations on the distinct keys `a` and `b` commute. -/
theorem crdt_distinct_keys_commutative_witness :
    List.Perm [ValOp.add "a" ⟨"pk", 1, 2⟩, ValOp.remove "b"]
      [ValOp.remove "b", ValOp.add "a" ⟨"pk", 1, 2⟩]
    ∧ (([ValOp.add "a" ⟨"pk", 1, 2⟩, ValOp.remove "b"].map ValOp.key).Nodup)
    ∧ runValOps [ValOp.add "a" ⟨"pk", 1, 2⟩, ValOp.remove "b"] emptyStore
      = runValOps [ValOp.remove "b", ValOp.add "a" ⟨"pk", 1, 2⟩] emptyStore :=
  ⟨List.Perm.swap _ _ _, by decide,
   crdt_distinct_keys_commutative.1 _ _ emptyStore (List.Perm.swap _ _ _) (by decide)⟩

/-! ## IBC entry points

Embedded from `contracts/provider/external-staking/src/ibc.rs`.  The
serde decoding of packet payloads and version strings is external to the
excerpt; an undecodable payload is modelled as `none`. -/

/-- One element of an `AddValidators` packet (`AddValidator` in
`mesh_apis::ibc`). -/
structure AddValidator where
  valoper : String
  pub_key : String
  start_height : Nat
  start_time : Nat
deriving DecidableEq, Repr

/-- The two inbound packet kinds (`ConsumerPacket`). -/
inductive ConsumerPacket where
  | addValidators (vals : List AddValidator)
  | removeValidators (vals : List String)
deriving DecidableEq, Repr

/-- Success acknowledgements (`AddValidatorsAck` / `RemoveValidatorsAck`
wrapped by `ack_success`); no failure acknowledgement exists. -/
inductive IbcAck where
  | addValidatorsAck
  | removeValidatorsAck
deriving DecidableEq, Repr

/-- Errors of the provider external-staking contract relevant to the IBC
entry points. -/
inductive ContractError where
  | decodeFailure
  | unauthorized
  | ibcChannelAlreadyOpen
  | ibcOpenInitDisallowed
  | invalidVersion
  | invalidChannelOrder
deriving DecidableEq, Repr

/-- The success acknowledgement the code emits for each packet kind. -/
def successAckOf : ConsumerPacket → IbcAck
  | .addValidators _ => .addValidatorsAck
  | .removeValidators _ => .removeValidatorsAck

/-- `ibc_packet_receive` from `ibc.rs`: an undecodable payload fails the
call; a decoded packet applies each element through the CRDT and sets a
success acknowledgement. -/
def ibc_packet_receive (store : CrdtStore) (data : Option ConsumerPacket) :
    Except ContractError (CrdtStore × IbcAck) :=
  match data with
  | none => .error .decodeFailure
  | some (.addValidators to_add) =>
    .ok (to_add.foldl
          (fun st av =>
            add_validator st av.valoper ⟨av.pub_key, av.start_height, av.start_time⟩)
          store,
        .addValidatorsAck)
  | some (.removeValidators to_remove) =>
    .ok (to_remove.foldl (fun st v => remove_validator st v) store,
        .removeValidatorsAck)

/-- C7: a decodable packet always yields a success acknowledgement
(application through the CRDT is total, absorbing duplicate adds and
removes of unknown validators), while an undecodable payload fails the
call with an error. -/
theorem packet_receive_total_ack :
    (∀ (store : CrdtStore) (p : ConsumerPacket),
        ∃ store', ibc_packet_receive store (some p) = .ok (store', successAckOf p))
    ∧ ∀ store : CrdtStore,
        ibc_packet_receive store none = .error .decodeFailure := by
  constructor
  · intro store p
    cases p with
    | addValidators l => exact ⟨_, rfl⟩
    | removeValidators l => exact ⟨_, rfl⟩
  · intro store
    rfl

/-- Channel ordering of an IBC channel. -/
inductive IbcOrder where
  | ordered
  | unordered
deriving DecidableEq, Repr

/-- One side of an IBC channel. -/
structure IbcEndpoint where
  port_id : String
  channel_id : String
deriving DecidableEq, Repr

/-- The IBC channel data carried by handshake messages. -/
structure IbcChannel where
  endpoint : IbcEndpoint
  counterparty_endpoint : IbcEndpoint
  order : IbcOrder
  version : String
  connection_id : String
deriving DecidableEq, Repr

/-- The configured counterparty the contract will accept
(`AuthorizedEndpoint` stored under `auth_endpoint`). -/
structure AuthorizedEndpoint where
  connection_id : String
  port_id : String
deriving DecidableEq, Repr

/-- Modelled from the spec: `mesh_apis::ibc::validate_channel_order`
accepts exactly the correct (unordered) channel ordering. -/
def validate_channel_order : IbcOrder → Bool
  | .unordered => true
  | .ordered => false

/-- Maximum protocol version the contract supports (stands for the
version string `1.0.0` in `ibc.rs`). -/
def SUPPORTED_IBC_PROTOCOL_VERSION : Nat := 1

/-- Minimum protocol version the contract is compatible with. -/
def MIN_IBC_PROTOCOL_VERSION : Nat := 1

/-- Modelled from the spec: `ProtocolVersion::build_response` negotiates
the counterparty's version against the configured minimum/maximum,
failing below the minimum and replying with the highest common version. -/
def build_response (theirs supported minv : Nat) : Except ContractError Nat :=
  if theirs < minv then .error .invalidVersion
  else .ok (min theirs supported)

/-- The channel-open handshake messages; an undecodable counterparty
version payload is modelled as `none`. -/
inductive IbcChannelOpenMsg where
  | openInit (channel : IbcChannel)
  | openTry (channel : IbcChannel) (counterparty_version : Option Nat)
deriving DecidableEq, Repr

/-- The channel-connect handshake messages. -/
inductive IbcChannelConnectMsg where
  | openAck (channel : IbcChannel) (counterparty_version : String)
  | openConfirm (channel : IbcChannel)
deriving DecidableEq, Repr

/-- `ibc_channel_open` from `ibc.rs`: rejects a duplicate channel, rejects
`OpenInit` (the passive side never initiates), validates the ordering,
the authorized counterparty endpoint, and the protocol version, and on
success returns the negotiated version; it stores nothing. -/
def ibc_channel_open (stored : Option IbcChannel) (auth : AuthorizedEndpoint)
    (msg : IbcChannelOpenMsg) : Except ContractError Nat :=
  if stored.isSome then .error .ibcChannelAlreadyOpen
  else
    match msg with
    | .openInit _ => .error .ibcOpenInitDisallowed
    | .openTry channel cv =>
      if validate_channel_order channel.order then
        if auth.connection_id = channel.connection_id
            ∧ auth.port_id = channel.counterparty_endpoint.port_id then
          match cv with
          | none => .error .decodeFailure
          | some v =>
            build_response v SUPPORTED_IBC_PROTOCOL_VERSION MIN_IBC_PROTOCOL_VERSION
        else .error .unauthorized
      else .error .invalidChannelOrder

/-- `ibc_channel_connect` from `ibc.rs`: rejects a duplicate channel and
anything but `OpenConfirm`, and only then stores the channel. -/
def ibc_channel_connect (stored : Option IbcChannel) (msg : IbcChannelConnectMsg) :
    Except ContractError (Option IbcChannel) :=
  if stored.isSome then .error .ibcChannelAlreadyOpen
  else
    match msg with
    | .openConfirm channel => .ok (some channel)
    | .openAck _ _ => .error .ibcOpenInitDisallowed

/-- Storage after a connect attempt: an error commits nothing. -/
def connectStorage (stored : Option IbcChannel) (msg : IbcChannelConnectMsg) :
    Option IbcChannel :=
  match ibc_channel_connect stored msg with
  | .ok s => s
  | .error _ => stored

/-- C8: `ibc_channel_open` fails on a duplicate channel and on `OpenInit`,
succeeds exactly on an `OpenTry` with the correct ordering, the
authorized counterparty endpoint and a compatible protocol version, and a
failed connect stores no channel. -/
theorem channel_open_passive_single :
    (∀ (ch : IbcChannel) (auth : AuthorizedEndpoint) (msg : IbcChannelOpenMsg),
        ibc_channel_open (some ch) auth msg = .error .ibcChannelAlreadyOpen)
    ∧ (∀ (auth : AuthorizedEndpoint) (ch : IbcChannel),
        ibc_channel_open none auth (.openInit ch) = .error .ibcOpenInitDisallowed)
    ∧ (∀ (auth : AuthorizedEndpoint) (ch : IbcChannel) (cv : Option Nat),
        (ibc_channel_open none auth (.openTry ch cv)).isOk = true
          ↔ (ch.order = .unordered
             ∧ auth.connection_id = ch.connection_id
             ∧ auth.port_id = ch.counterparty_endpoint.port_id
             ∧ ∃ v, cv = some v ∧ MIN_IBC_PROTOCOL_VERSION ≤ v))
    ∧ ∀ (stored : Option IbcChannel) (msg : IbcChannelConnectMsg),
        (ibc_channel_connect stored msg).isOk = false →
          connectStorage stored msg = stored := by
  refine ⟨fun ch auth msg => ?_, fun auth ch => ?_, fun auth ch cv => ?_,
    fun stored msg h => ?_⟩
  · simp [ibc_channel_open]
  · simp [ibc_channel_open]
  · simp only [ibc_channel_open, Option.isSome_none, Bool.false_eq_true, if_false]
    cases hord : ch.order with
    | ordered => simp [validate_channel_order, hord, Except.isOk, Except.toBool]
    | unordered =>
      simp only [validate_channel_order, if_true]
      by_cases hauth : auth.connection_id = ch.connection_id
          ∧ auth.port_id = ch.counterparty_endpoint.port_id
      · rw [if_pos hauth]
        cases cv with
        | none => simp [hauth, Except.isOk, Except.toBool]
        | some v =>
          simp only [build_response]
          by_cases hv : v < MIN_IBC_PROTOCOL_VERSION
          · rw [if_pos hv]
            simp only [Except.isOk, Except.toBool]
            constructor
            · intro h; cases h
            · rintro ⟨-, -, -, v', hv', hle⟩
              cases hv'
              omega
          · rw [if_neg hv]
            simp only [Except.isOk, Except.toBool, true_iff]
            exact ⟨trivial, hauth.1, hauth.2, v, rfl, by omega⟩
      · rw [if_neg hauth]
        simp only [Except.isOk, Except.toBool]
        constructor
        · intro h; cases h
        · rintro ⟨-, h1, h2, -⟩
          exact absurd ⟨h1, h2⟩ hauth
  · unfold connectStorage
    cases hr : ibc_channel_connect stored msg with
    | ok s => rw [hr] at h; cases h
    | error e => rfl

/-- Concrete channel used by the C8 witness. -/
def sampleChannel : IbcChannel :=
  { endpoint := ⟨"wasm.provider", "channel-0"⟩
    counterparty_endpoint := ⟨"wasm.consumer", "channel-1"⟩
    order := .unordered
    version := "1"
    connection_id := "connection-0" }

/-- C8 witness: with a channel already stored, a further open attempt
fails with the duplicate-channel error. -/
theorem channel_open_passive_single_witness :
    ibc_channel_open (some sampleChannel) ⟨"connection-0", "wasm.consumer"⟩
        (.openTry sampleChannel (some 1)) = .error .ibcChannelAlreadyOpen
    ∧ ((ibc_channel_connect none (.openAck sampleChannel "1")).isOk = false
      ∧ connectStorage none (.openAck sampleChannel "1") = none) :=
  ⟨channel_open_passive_single.1 sampleChannel ⟨"connection-0", "wasm.consumer"⟩
      (.openTry sampleChannel (some 1)),
   ⟨rfl, channel_open_passive_single.2.2.2 none (.openAck sampleChannel "1") rfl⟩⟩

end MeshSecurity
